import Mathlib

/-!
Verification of the float_test repository (a multi-language Perlin noise
benchmark, src/src/main.rs) against its natural-language specification.

The f32 arithmetic of the source is modelled over the real numbers; the two
spec components that are not part of the provided source files (the
escape-time evaluator and the ramp quantizer) are modelled over the rationals
and naturals respectively, directly from the specification text.
-/

namespace Pnoise

/-- 2D vector of floats, used both as a point and as a gradient direction
(struct Vec2 in main.rs, fields x and y). -/
structure Vec2 where
  x : ℝ
  y : ℝ

/-- Linear interpolation, fn lerp in main.rs: a * (1.0 - v) + b * v. -/
def lerp (a b v : ℝ) : ℝ := a * (1 - v) + b * v

/-- Smoothstep easing, fn smooth in main.rs: v * v * (3.0 - 2.0 * v). -/
def smooth (v : ℝ) : ℝ := v * v * (3 - 2 * v)

/-- Random unit gradient, fn random_gradient in main.rs.  The call
r.gen::<f32>() produces a float u in [0,1); it enters here as the
parameter u, and the result is (cos (2 pi u), sin (2 pi u)). -/
noncomputable def random_gradient (u : ℝ) : Vec2 :=
  ⟨Real.cos (Real.pi * 2 * u), Real.sin (Real.pi * 2 * u)⟩

/-- Directional derivative at a corner, fn gradient in main.rs:
(p.x - orig.x) * grad.x + (p.y - orig.y) * grad.y. -/
def gradient (orig grad p : Vec2) : ℝ :=
  (p.x - orig.x) * grad.x + (p.y - orig.y) * grad.y

/-- Bitwise AND with 255 on i32 agrees with the Euclidean remainder mod 256
(this is why the source can use the mask as an array index even for negative
coordinates). -/
theorem int_land_255_eq_emod (v : ℤ) : Int.land v 255 = v % 256 := by
  cases v with
  | ofNat m =>
      have h1 : Int.land (Int.ofNat m) (Int.ofNat 255) = Int.ofNat (m &&& 255) := rfl
      have h2 : m &&& 255 = m % 256 := by
        have := Nat.and_pow_two_sub_one_eq_mod m 8
        norm_num at this
        exact this
      show Int.land (Int.ofNat m) (Int.ofNat 255) = Int.ofNat m % 256
      rw [h1, h2]
      simp only [Int.ofNat_eq_coe]
      omega
  | negSucc m =>
      have h1 : Int.land (Int.negSucc m) (Int.ofNat 255) = Int.ofNat (Nat.ldiff 255 m) := rfl
      have h2 : Nat.ldiff 255 m = 255 - m % 256 := by
        have hlt : m % 256 < 2 ^ 8 := by
          have := Nat.mod_lt m (show 0 < 256 by norm_num)
          omega
        apply Nat.eq_of_testBit_eq
        intro i
        have hsub : (255 - m % 256) = 2 ^ 8 - (m % 256 + 1) := by omega
        have h255 : (255 : ℕ) = 2 ^ 8 - 1 := by norm_num
        have h256 : (256 : ℕ) = 2 ^ 8 := by norm_num
        rw [Nat.testBit_ldiff, hsub, Nat.testBit_two_pow_sub_succ hlt, h256,
          Nat.testBit_mod_two_pow, h255, Nat.testBit_two_pow_sub_one]
        by_cases hi : i < 8 <;> simp [hi]
      show Int.land (Int.negSucc m) (Int.ofNat 255) = Int.negSucc m % 256
      rw [h1, h2, Int.negSucc_eq]
      simp only [Int.ofNat_eq_coe]
      omega

theorem land255_nonneg (v : ℤ) : 0 ≤ Int.land v 255 := by
  rw [int_land_255_eq_emod]
  exact Int.emod_nonneg v (by norm_num)

theorem land255_lt (v : ℤ) : Int.land v 255 < 256 := by
  rw [int_land_255_eq_emod]
  exact Int.emod_lt_of_pos v (by norm_num)

theorem land255_toNat_lt (v : ℤ) : (Int.land v 255).toNat < 256 := by
  have h1 := land255_nonneg v
  have h2 := land255_lt v
  omega

/-- The index computation (w & 255) as usize that the source uses on every
table access: the masked value is always a valid index into a 256-entry
array. -/
def maskIdx (v : ℤ) : Fin 256 :=
  ⟨(Int.land v 255).toNat, land255_toNat_lt v⟩

/-- struct Noise2DContext in main.rs: 256 random gradients and a shuffled
permutation table of i32 values. -/
structure Noise2DContext where
  rgradients : Fin 256 → Vec2
  permutations : Fin 256 → ℤ

/-- fn get_gradient in main.rs:
rgradients[(permutations[(x & 255) as usize] + permutations[(y & 255) as usize]) & 255].
The i32 addition cannot overflow for the tables the program builds (entries
lie in [0,255]), so it is modelled as integer addition. -/
def Noise2DContext.get_gradient (c : Noise2DContext) (x y : ℤ) : Vec2 :=
  let idx := c.permutations (maskIdx x) + c.permutations (maskIdx y)
  c.rgradients (maskIdx idx)

/-- fn get_gradients in main.rs: the four corner gradients and corner
origins for the cell containing (x, y).  x0f = x.floor() is modelled as the
real floor; the cast x0f as i32 is exact for in-range values. -/
noncomputable def Noise2DContext.get_gradients (c : Noise2DContext) (x y : ℝ) :
    (Vec2 × Vec2 × Vec2 × Vec2) × (Vec2 × Vec2 × Vec2 × Vec2) :=
  let x0f : ℝ := (⌊x⌋ : ℤ)
  let y0f : ℝ := (⌊y⌋ : ℤ)
  let x1f : ℝ := x0f + 1
  let y1f : ℝ := y0f + 1
  let x0 : ℤ := ⌊x⌋
  let y0 : ℤ := ⌊y⌋
  let x1 : ℤ := x0 + 1
  let y1 : ℤ := y0 + 1
  ((c.get_gradient x0 y0, c.get_gradient x1 y0,
    c.get_gradient x0 y1, c.get_gradient x1 y1),
   (⟨x0f, y0f⟩, ⟨x1f, y0f⟩, ⟨x0f, y1f⟩, ⟨x1f, y1f⟩))

/-- fn get in main.rs: the noise sample.  Four corner dot products, a lerp
along x for each row with fx = smooth(x - origins[0].x), then a lerp of the
two rows with fy = smooth(y - origins[0].y). -/
noncomputable def Noise2DContext.get (c : Noise2DContext) (x y : ℝ) : ℝ :=
  let p : Vec2 := ⟨x, y⟩
  let go := c.get_gradients x y
  let gs := go.1
  let origins := go.2
  let v0 := gradient origins.1 gs.1 p
  let v1 := gradient origins.2.1 gs.2.1 p
  let v2 := gradient origins.2.2.1 gs.2.2.1 p
  let v3 := gradient origins.2.2.2 gs.2.2.2 p
  let fx := smooth (x - origins.1.x)
  let vx0 := lerp v0 v1 fx
  let vx1 := lerp v2 v3 fx
  let fy := smooth (y - origins.1.y)
  lerp vx0 vx1 fy

/-- Bounds-checked index conversion: some index when the i32 value is a
valid index for a 256-entry array, none when the access would panic. -/
def checkedIdx (v : ℤ) : Option (Fin 256) :=
  if h : 0 ≤ v ∧ v < 256 then some ⟨v.toNat, by omega⟩ else none

/-- fn get_gradient with every array access bounds-checked: returns none
exactly when one of the three indexing operations would panic. -/
def Noise2DContext.get_gradient_checked (c : Noise2DContext) (x y : ℤ) : Option Vec2 := do
  let i ← checkedIdx (Int.land x 255)
  let j ← checkedIdx (Int.land y 255)
  let k ← checkedIdx (Int.land (c.permutations i + c.permutations j) 255)
  pure (c.rgradients k)

/-- fn get with every array access bounds-checked. -/
noncomputable def Noise2DContext.get_checked (c : Noise2DContext) (x y : ℝ) : Option ℝ := do
  let x0 : ℤ := ⌊x⌋
  let y0 : ℤ := ⌊y⌋
  let g0 ← c.get_gradient_checked x0 y0
  let g1 ← c.get_gradient_checked (x0 + 1) y0
  let g2 ← c.get_gradient_checked x0 (y0 + 1)
  let g3 ← c.get_gradient_checked (x0 + 1) (y0 + 1)
  let p : Vec2 := ⟨x, y⟩
  let x0f : ℝ := (x0 : ℝ)
  let y0f : ℝ := (y0 : ℝ)
  let v0 := gradient ⟨x0f, y0f⟩ g0 p
  let v1 := gradient ⟨x0f + 1, y0f⟩ g1 p
  let v2 := gradient ⟨x0f, y0f + 1⟩ g2 p
  let v3 := gradient ⟨x0f + 1, y0f + 1⟩ g3 p
  let fx := smooth (x - x0f)
  let vx0 := lerp v0 v1 fx
  let vx1 := lerp v2 v3 fx
  let fy := smooth (y - y0f)
  pure (lerp vx0 vx1 fy)

/-- One in-place swap of two positions of the permutation array, the
elementary operation that the shuffle of the rand crate performs. -/
def swapIdx (f : Fin 256 → ℤ) (i j : Fin 256) : Fin 256 → ℤ :=
  fun k => if k = i then f j else if k = j then f i else f k

/-- The Fisher-Yates shuffle of the rand crate (permutations.shuffle(&mut rng))
is a sequence of in-place swaps of positions; the random position pairs are
abstracted as the list argument. -/
def applySwaps (f : Fin 256 → ℤ) : List (Fin 256 × Fin 256) → (Fin 256 → ℤ)
  | [] => f
  | s :: rest => applySwaps (swapIdx f s.1 s.2) rest

/-- fn Noise2DContext::new in main.rs: 256 gradients drawn from the rng
(the stream of random floats enters as us) and a permutation table that
starts as the identity sequence 0..255 and is then shuffled (the random
swap pairs of the shuffle enter as swaps). -/
noncomputable def Noise2DContext.new (us : Fin 256 → ℝ)
    (swaps : List (Fin 256 × Fin 256)) : Noise2DContext :=
  ⟨fun i => random_gradient (us i), applySwaps (fun i => (i : ℤ)) swaps⟩

/-- Grid width used by fn main in main.rs (const COLS). -/
def COLS : ℕ := 80

/-- Grid height used by fn main in main.rs (const ROWS). -/
def ROWS : ℕ := 25

/-- The six-glyph symbol array of fn main in main.rs, with the final glyph
duplicated. -/
def symbols : List Char := [' ', '░', '▒', '▓', '█', '█']

/-- The value the fill loop of fn main stores for cell (row y, column x):
n2d.get(x as f32 * 0.1, y as f32 * 0.1) remapped by v * 0.5 + 0.5. -/
noncomputable def pixelValue (c : Noise2DContext) (y x : ℕ) : ℝ :=
  c.get ((x : ℝ) * 0.1) ((y : ℝ) * 0.1) * 0.5 + 0.5

/-- One assignment pixels[y * COLS + x] = v * 0.5 + 0.5 of the fill loop. -/
noncomputable def writeCell (c : Noise2DContext) (y x : ℕ) (b : ℕ → ℝ) : ℕ → ℝ :=
  Function.update b (y * COLS + x) (pixelValue c y x)

/-- The inner loop of one fill pass: for x in 0..COLS, write cell (y, x). -/
noncomputable def writeRow (c : Noise2DContext) (y : ℕ) (b : ℕ → ℝ) : ℕ → ℝ :=
  (List.range COLS).foldl (fun b2 x => writeCell c y x b2) b

/-- One full pass of the per-frame fill loop of fn main: for y in 0..ROWS,
for x in 0..COLS, pixels[y * COLS + x] = get(x * 0.1, y * 0.1) * 0.5 + 0.5.
The benchmark runs this pass 100 times over the same buffer. -/
noncomputable def fillPass (c : Noise2DContext) (b : ℕ → ℝ) : ℕ → ℝ :=
  (List.range ROWS).foldl (fun b2 y => writeRow c y b2) b

/-- The cast expr as usize that fn main applies to pixels[..] / 0.2: a
float-to-usize cast truncates toward zero and saturates below at 0. -/
noncomputable def asUsize (r : ℝ) : ℕ := ⌊r⌋.toNat

/-- The glyph index (pixels[y * COLS + x] / 0.2) as usize computed by the
print loop of fn main. -/
noncomputable def symbolIndex (pixel : ℝ) : ℕ := asUsize (pixel / 0.2)

/-- Written from the spec text of section 4.2 (gradient_at): compute
idx = permutation[ix & 255] + permutation[iy & 255] and return
gradients[idx & 255]; stated for comparison with fn get_gradient. -/
def gradient_at (c : Noise2DContext) (ix iy : ℤ) : Vec2 :=
  let idx := c.permutations (maskIdx ix) + c.permutations (maskIdx iy)
  c.rgradients (maskIdx idx)

/-- Written from the spec text of section 4.2 (smoothstep): t * t * (3 - 2t). -/
def smoothstep (t : ℝ) : ℝ := t * t * (3 - 2 * t)

/-- Written from the spec text of section 4.2 (sample), steps 1-7: corner
origins from the floors of x and y, four corner dot products, interpolation
along x of each row with fx = smoothstep(x - x0_float), then interpolation
of the two row results with fy = smoothstep(y - y0_float), fy being
anchored at the y origin of corner 0 for both rows; stated for comparison
with fn get. -/
noncomputable def sampleSpec (c : Noise2DContext) (x y : ℝ) : ℝ :=
  let x0 : ℤ := ⌊x⌋
  let y0 : ℤ := ⌊y⌋
  let x1 : ℤ := x0 + 1
  let y1 : ℤ := y0 + 1
  let g00 := gradient_at c x0 y0
  let g10 := gradient_at c x1 y0
  let g01 := gradient_at c x0 y1
  let g11 := gradient_at c x1 y1
  let v00 := (x - (x0 : ℝ)) * g00.x + (y - (y0 : ℝ)) * g00.y
  let v10 := (x - (x1 : ℝ)) * g10.x + (y - (y0 : ℝ)) * g10.y
  let v01 := (x - (x0 : ℝ)) * g01.x + (y - (y1 : ℝ)) * g01.y
  let v11 := (x - (x1 : ℝ)) * g11.x + (y - (y1 : ℝ)) * g11.y
  let fx := smoothstep (x - (x0 : ℝ))
  let vx0 := lerp v00 v10 fx
  let vx1 := lerp v01 v11 fx
  let fy := smoothstep (y - (y0 : ℝ))
  lerp vx0 vx1 fy

/-- Modelled from the spec: the ComplexFieldEvaluator of section 4.1 is not
among the provided source files (only the noise path of the repository is),
so the quadratic map z * z + c on complex values, here over pairs of
rationals, is taken from the spec text. -/
def cstep (c z : ℚ × ℚ) : ℚ × ℚ :=
  (z.1 * z.1 - z.2 * z.2 + c.1, 2 * z.1 * z.2 + c.2)

/-- Modelled from the spec: squared magnitude used by the continuation
predicate of section 4.1. -/
def normSq (z : ℚ × ℚ) : ℚ := z.1 * z.1 + z.2 * z.2

/-- Modelled from the spec: the escape-time loop of section 4.1.  The
remaining-iteration count rem equals max_iter - n, so returning rem on
escape realises the inverted result policy max_iter - n, and returning 0
when the fuel is exhausted realises the interior case. -/
def iterateGo (c : ℚ × ℚ) : ℚ × ℚ → ℕ → ℕ
  | _, 0 => 0
  | z, rem + 1 => if normSq z ≤ 4 then iterateGo c (cstep c z) rem else rem + 1

/-- Modelled from the spec: iterate(c, max_iter) of section 4.1, seeding the
orbit at c itself. -/
def iterate (c : ℚ × ℚ) (maxIter : ℕ) : ℕ := iterateGo c c maxIter

/-- The orbit of the quadratic map seeded at c: orbit c 0 = c and
orbit c (n+1) = cstep c (orbit c n); used to state what the loop of
iterate computes. -/
def orbit (c : ℚ × ℚ) : ℕ → ℚ × ℚ
  | 0 => c
  | n + 1 => cstep c (orbit c n)

/-- Modelled from the spec: the bucket scan of the SymbolQuantizer of
section 4.3, which is not among the provided source files.  The loop index
i runs while fuel counts down from len(ramp) - 1, so exactly the buckets
i = 0 .. n-2 are tested; falling out of the loop returns the last glyph. -/
def quantizeLoop (value step : ℕ) (ramp : List Char) : ℕ → ℕ → Char
  | _, 0 => ramp.getD (ramp.length - 1) ' '
  | i, fuel + 1 =>
      if i * step ≤ value ∧ value < (i + 1) * step then ramp.getD i ' '
      else quantizeLoop value step ramp (i + 1) fuel

/-- Modelled from the spec: quantize(value, ramp) of section 4.3 with
step = floor(255 / len(ramp)). -/
def quantize (value : ℕ) (ramp : List Char) : Char :=
  quantizeLoop value (255 / ramp.length) ramp 0 (ramp.length - 1)

/-- The ten-glyph ramp of the quantization example in section 8 of the
spec. -/
def specRamp : List Char := ['@', '%', '#', '*', '+', '=', '~', ':', '.', ' ']

/-- Unfolding of fn get: the noise sample written out in full. -/
theorem Noise2DContext.get_eq (c : Noise2DContext) (x y : ℝ) :
    c.get x y =
      lerp
        (lerp (gradient ⟨((⌊x⌋ : ℤ) : ℝ), ((⌊y⌋ : ℤ) : ℝ)⟩ (c.get_gradient ⌊x⌋ ⌊y⌋) ⟨x, y⟩)
              (gradient ⟨((⌊x⌋ : ℤ) : ℝ) + 1, ((⌊y⌋ : ℤ) : ℝ)⟩
                (c.get_gradient (⌊x⌋ + 1) ⌊y⌋) ⟨x, y⟩)
              (smooth (x - ((⌊x⌋ : ℤ) : ℝ))))
        (lerp (gradient ⟨((⌊x⌋ : ℤ) : ℝ), ((⌊y⌋ : ℤ) : ℝ) + 1⟩
                (c.get_gradient ⌊x⌋ (⌊y⌋ + 1)) ⟨x, y⟩)
              (gradient ⟨((⌊x⌋ : ℤ) : ℝ) + 1, ((⌊y⌋ : ℤ) : ℝ) + 1⟩
                (c.get_gradient (⌊x⌋ + 1) (⌊y⌋ + 1)) ⟨x, y⟩)
              (smooth (x - ((⌊x⌋ : ℤ) : ℝ))))
        (smooth (y - ((⌊y⌋ : ℤ) : ℝ))) := rfl

/-- The spec-side gradient_at and the source get_gradient coincide
definitionally. -/
theorem gradient_at_eq (c : Noise2DContext) (ix iy : ℤ) :
    gradient_at c ix iy = c.get_gradient ix iy := rfl

/-- Claim C1: for every finite input (x, y) the noise sample is computed as
the spec states: the four corner dot products are blended by interpolating
along x for each row with fx = smoothstep(x - x0_float), smoothstep(t) =
t * t * (3 - 2t), and then interpolating the two row results with
fy = smoothstep(y - y0_float), anchored at the y origin of corner 0 for
both rows. -/
theorem sample_blend_spec (c : Noise2DContext) (x y : ℝ) :
    c.get x y = sampleSpec c x y := by
  rw [Noise2DContext.get_eq]
  simp only [sampleSpec, gradient_at_eq, gradient, smoothstep, smooth, lerp]
  push_cast
  ring

/-- Masking with AND 255 is 256-periodic. -/
theorem maskIdx_add_256 (v : ℤ) : maskIdx (v + 256) = maskIdx v := by
  apply Fin.ext
  simp only [maskIdx]
  rw [int_land_255_eq_emod, int_land_255_eq_emod]
  omega

/-- Claim C2: for every pair of integers the gradient lookup returns
gradients[(permutations[ix & 255] + permutations[iy & 255]) & 255] — a
single-level permutation hash — and the AND mask makes the lookup wrap
around with period 256 in each argument (Euclidean wraparound, which a
Rust-style remainder would not give on negative input). -/
theorem gradient_lookup_spec (c : Noise2DContext) (ix iy : ℤ) :
    c.get_gradient ix iy =
      c.rgradients (maskIdx (c.permutations (maskIdx ix) + c.permutations (maskIdx iy))) ∧
    c.get_gradient ix iy = gradient_at c ix iy ∧
    c.get_gradient (ix + 256) iy = c.get_gradient ix iy ∧
    c.get_gradient ix (iy + 256) = c.get_gradient ix iy := by
  refine ⟨rfl, rfl, ?_, ?_⟩
  · simp only [Noise2DContext.get_gradient, maskIdx_add_256]
  · simp only [Noise2DContext.get_gradient, maskIdx_add_256]

/-- A swap of two positions is composition with the transposition of the
two indices. -/
theorem swapIdx_comp (f : Fin 256 → ℤ) (i j : Fin 256) :
    swapIdx f i j = f ∘ (Equiv.swap i j) := by
  funext k
  simp only [swapIdx, Function.comp_apply, Equiv.swap_apply_def]
  split_ifs <;> rfl

/-- Any sequence of swaps acts on the table as composition with a
permutation of the index set. -/
theorem applySwaps_perm (l : List (Fin 256 × Fin 256)) :
    ∀ f : Fin 256 → ℤ, ∃ τ : Equiv.Perm (Fin 256), applySwaps f l = f ∘ τ := by
  induction l with
  | nil => intro f; exact ⟨Equiv.refl _, rfl⟩
  | cons s rest ih =>
      intro f
      obtain ⟨τ', h⟩ := ih (swapIdx f s.1 s.2)
      refine ⟨τ'.trans (Equiv.swap s.1 s.2), ?_⟩
      show applySwaps (swapIdx f s.1 s.2) rest = _
      rw [h, swapIdx_comp]
      funext k
      simp [Function.comp_apply, Equiv.trans_apply]

/-- Claim C3: after construction (identity sequence shuffled), the
permutation table is a bijection on [0,255]: every entry lies in [0,255]
and every value of [0,255] appears at exactly one position.  The table of
the pure model is the one the instance keeps for its whole lifetime. -/
theorem permutation_bijection (us : Fin 256 → ℝ) (swaps : List (Fin 256 × Fin 256)) :
    (∀ i, 0 ≤ (Noise2DContext.new us swaps).permutations i ∧
          (Noise2DContext.new us swaps).permutations i < 256) ∧
    ∀ v : ℤ, 0 ≤ v → v < 256 →
      ∃! i : Fin 256, (Noise2DContext.new us swaps).permutations i = v := by
  obtain ⟨τ, hτ⟩ := applySwaps_perm swaps (fun i : Fin 256 => (i : ℤ))
  have hperm : (Noise2DContext.new us swaps).permutations = fun i => ((τ i : ℕ) : ℤ) := hτ
  constructor
  · intro i
    simp only [hperm]
    have := (τ i).isLt
    constructor
    · exact Int.ofNat_nonneg _
    · exact_mod_cast this
  · intro v h0 h256
    have hv : v.toNat < 256 := by omega
    refine ⟨τ.symm ⟨v.toNat, hv⟩, ?_, ?_⟩
    · simp only [hperm]
      simp only [Equiv.apply_symm_apply]
      omega
    · intro i' hi'
      simp only [hperm] at hi'
      have hval : (τ i').val = v.toNat := by omega
      have : τ i' = ⟨v.toNat, hv⟩ := Fin.ext hval
      rw [← this, Equiv.symm_apply_apply]

/-- Witness for claim C3 at a concrete construction and value. -/
theorem permutation_bijection_witness :
    (0 : ℤ) ≤ 0 ∧ (0 : ℤ) < 256 ∧
    ∃! i : Fin 256, (Noise2DContext.new (fun _ => 0) []).permutations i = 0 :=
  ⟨le_refl 0, by norm_num,
    (permutation_bijection (fun _ => 0) []).2 0 (le_refl 0) (by norm_num)⟩

/-- Claim C9: sampling is pure — the results of get and get_gradient are
determined by the gradient and permutation tables alone, so two calls on a
context with equal tables (in particular, two calls on the same context)
return equal results; in this pure model of the borrowed &self receiver no
call can modify the tables. -/
theorem sample_pure_deterministic (c c' : Noise2DContext)
    (hg : c.rgradients = c'.rgradients) (hp : c.permutations = c'.permutations) :
    (∀ x y : ℝ, c.get x y = c'.get x y) ∧
    (∀ ix iy : ℤ, c.get_gradient ix iy = c'.get_gradient ix iy) := by
  obtain ⟨cg, cp⟩ := c
  obtain ⟨cg', cp'⟩ := c'
  dsimp only at hg hp
  subst hg
  subst hp
  exact ⟨fun x y => rfl, fun ix iy => rfl⟩

/-- Witness for claim C9 at a concrete context. -/
theorem sample_pure_deterministic_witness :
    (⟨fun _ => ⟨0, 0⟩, fun _ => 0⟩ : Noise2DContext).get 0 0 =
      (⟨fun _ => ⟨0, 0⟩, fun _ => 0⟩ : Noise2DContext).get 0 0 :=
  (sample_pure_deterministic _ _ rfl rfl).1 0 0

/-- The escape-time loop never returns more than its fuel. -/
theorem iterateGo_le (c : ℚ × ℚ) (rem : ℕ) : ∀ z, iterateGo c z rem ≤ rem := by
  induction rem with
  | zero => intro z; exact Nat.le_refl 0
  | succ r ih =>
      intro z
      simp only [iterateGo]
      split
      · exact Nat.le_trans (ih _) (Nat.le_succ r)
      · exact Nat.le_refl _

/-- If the orbit stays bounded up to step n and escapes at step n, with
n inside the fuel budget, the loop started at orbit position j returns
its fuel minus the number of steps taken. -/
theorem iterateGo_escape (c : ℚ × ℚ) :
    ∀ (rem j n : ℕ), j ≤ n → n < j + rem →
      (∀ k, j ≤ k → k < n → normSq (orbit c k) ≤ 4) →
      ¬ normSq (orbit c n) ≤ 4 →
      iterateGo c (orbit c j) rem = j + rem - n := by
  intro rem
  induction rem with
  | zero => intro j n h1 h2 _ _; exact absurd h2 (by omega)
  | succ r ih =>
      intro j n hjn hlt hbdd hesc
      by_cases he : j = n
      · subst he
        simp only [iterateGo, if_neg hesc]
        omega
      · have hb : normSq (orbit c j) ≤ 4 := hbdd j (Nat.le_refl j) (by omega)
        simp only [iterateGo, if_pos hb]
        have horb : cstep c (orbit c j) = orbit c (j + 1) := rfl
        rw [horb, ih (j + 1) n (by omega) (by omega)
          (fun k hk1 hk2 => hbdd k (by omega) hk2) hesc]
        omega

/-- If the orbit stays bounded for the whole fuel budget the loop returns 0. -/
theorem iterateGo_interior (c : ℚ × ℚ) :
    ∀ (rem j : ℕ), (∀ k, j ≤ k → k < j + rem → normSq (orbit c k) ≤ 4) →
      iterateGo c (orbit c j) rem = 0 := by
  intro rem
  induction rem with
  | zero => intro j _; rfl
  | succ r ih =>
      intro j h
      simp only [iterateGo, if_pos (h j (Nat.le_refl j) (by omega))]
      have horb : cstep c (orbit c j) = orbit c (j + 1) := rfl
      rw [horb]
      exact ih (j + 1) (fun k hk1 hk2 => h k (by omega) (by omega))

/-- Claim C4: iterate seeds the orbit at c, applies the quadratic map while
the squared magnitude stays at most 4 and the cap is not reached, returns
max_iter - n when the orbit escapes at step n before the cap, returns 0
when the cap is exhausted, satisfies the two spec examples, and always
lies in [0, max_iter]. -/
theorem iterate_escape_time_spec :
    iterate (3, 0) 2 = 2 ∧
    iterate (0, 0) 2 = 0 ∧
    (∀ (c : ℚ × ℚ) (m : ℕ), iterate c m ≤ m) ∧
    (∀ (c : ℚ × ℚ) (m n : ℕ), n < m →
      (∀ k, k < n → normSq (orbit c k) ≤ 4) →
      ¬ normSq (orbit c n) ≤ 4 → iterate c m = m - n) ∧
    (∀ (c : ℚ × ℚ) (m : ℕ), (∀ n, n < m → normSq (orbit c n) ≤ 4) →
      iterate c m = 0) := by
  refine ⟨?_, ?_, ?_, ?_, ?_⟩
  · norm_num [iterate, iterateGo, normSq]
  · norm_num [iterate, iterateGo, normSq, cstep]
  · intro c m; exact iterateGo_le c m c
  · intro c m n hnm hbdd hesc
    have h0 : iterate c m = iterateGo c (orbit c 0) m := rfl
    rw [h0, iterateGo_escape c m 0 n (Nat.zero_le n) (by omega)
      (fun k _ hk2 => hbdd k hk2) hesc]
    omega
  · intro c m hbdd
    have h0 : iterate c m = iterateGo c (orbit c 0) m := rfl
    rw [h0]
    exact iterateGo_interior c m 0 (fun k _ hk2 => hbdd k (by omega))

/-- Witness for claim C4: the immediate-escape example through the general
escape branch. -/
theorem iterate_escape_time_spec_witness :
    (0 < 2 ∧ ¬ normSq (orbit (3, 0) 0) ≤ 4) ∧ iterate (3, 0) 2 = 2 - 0 :=
  ⟨⟨by norm_num, by norm_num [orbit, normSq]⟩,
    iterate_escape_time_spec.2.2.2.1 (3, 0) 2 0 (by norm_num)
      (fun k hk => absurd hk (Nat.not_lt_zero k)) (by norm_num [orbit, normSq])⟩

/-- If value falls in the bucket of index i, the scan started below i
returns glyph i. -/
theorem quantizeLoop_found (v step : ℕ) (ramp : List Char) :
    ∀ (fuel i0 i : ℕ), i0 ≤ i → i < i0 + fuel →
      i * step ≤ v → v < (i + 1) * step →
      quantizeLoop v step ramp i0 fuel = ramp.getD i ' ' := by
  intro fuel
  induction fuel with
  | zero => intro i0 i h1 h2 _ _; exact absurd h2 (by omega)
  | succ f ih =>
      intro i0 i h1 h2 h3 h4
      by_cases he : i0 = i
      · subst he
        simp only [quantizeLoop, if_pos (And.intro h3 h4)]
      · have hcond : ¬ (i0 * step ≤ v ∧ v < (i0 + 1) * step) := by
          rintro ⟨_, hb⟩
          have : (i0 + 1) * step ≤ i * step := Nat.mul_le_mul_right step (by omega)
          omega
        simp only [quantizeLoop, if_neg hcond]
        exact ih (i0 + 1) i (by omega) (by omega) h3 h4

/-- If no bucket in range matches, the scan falls through to the last
glyph. -/
theorem quantizeLoop_fallthrough (v step : ℕ) (ramp : List Char) :
    ∀ (fuel i0 : ℕ),
      (∀ i, i0 ≤ i → i < i0 + fuel → ¬ (i * step ≤ v ∧ v < (i + 1) * step)) →
      quantizeLoop v step ramp i0 fuel = ramp.getD (ramp.length - 1) ' ' := by
  intro fuel
  induction fuel with
  | zero => intro i0 _; rfl
  | succ f ih =>
      intro i0 h
      simp only [quantizeLoop, if_neg (h i0 (Nat.le_refl i0) (by omega))]
      exact ih (i0 + 1) (fun i h1 h2 => h i (by omega) (by omega))

/-- Claim C5: quantization against a ramp of n glyphs uses the n-1 uniform
buckets of width floor(255 / n) — bucket i returns glyph i — and every
value at or beyond (n-1) * step falls through to the last glyph; with the
ten-glyph ramp of the spec, quantize maps 0 and 24 to the first glyph, 25
to the second and 250 and 255 to the last. -/
theorem quantize_bucket_spec :
    (∀ (ramp : List Char) (v i : ℕ), 2 ≤ ramp.length → i ≤ ramp.length - 2 →
      i * (255 / ramp.length) ≤ v → v < (i + 1) * (255 / ramp.length) →
      quantize v ramp = ramp.getD i ' ') ∧
    (∀ (ramp : List Char) (v : ℕ), 2 ≤ ramp.length →
      (ramp.length - 1) * (255 / ramp.length) ≤ v →
      quantize v ramp = ramp.getD (ramp.length - 1) ' ') ∧
    quantize 0 specRamp = '@' ∧ quantize 24 specRamp = '@' ∧
    quantize 25 specRamp = '%' ∧ quantize 250 specRamp = ' ' ∧
    quantize 255 specRamp = ' ' := by
  refine ⟨?_, ?_, by decide, by decide, by decide, by decide, by decide⟩
  · intro ramp v i hlen hi h1 h2
    exact quantizeLoop_found v (255 / ramp.length) ramp (ramp.length - 1) 0 i
      (Nat.zero_le i) (by omega) h1 h2
  · intro ramp v hlen hv
    apply quantizeLoop_fallthrough
    intro i _ hi
    rintro ⟨_, hb⟩
    have : (i + 1) * (255 / ramp.length) ≤ (ramp.length - 1) * (255 / ramp.length) :=
      Nat.mul_le_mul_right _ (by omega)
    omega

/-- Witness for claim C5: bucket 0 of the ten-glyph ramp through the
general bucket branch. -/
theorem quantize_bucket_spec_witness :
    (2 ≤ specRamp.length ∧ 0 ≤ specRamp.length - 2 ∧
      0 * (255 / specRamp.length) ≤ 0 ∧ 0 < (0 + 1) * (255 / specRamp.length)) ∧
    quantize 0 specRamp = specRamp.getD 0 ' ' :=
  ⟨⟨by decide, by decide, by decide, by decide⟩,
    quantize_bucket_spec.1 specRamp 0 0 (by decide) (by decide) (by decide) (by decide)⟩

/-- The bounds-checked gradient lookup always succeeds, and agrees with the
unchecked one. -/
theorem get_gradient_checked_eq (c : Noise2DContext) (x y : ℤ) :
    c.get_gradient_checked x y = some (c.get_gradient x y) := by
  simp only [Noise2DContext.get_gradient_checked, checkedIdx, Noise2DContext.get_gradient,
    maskIdx, land255_nonneg, land255_lt, and_self, dite_true, true_and, Option.bind_eq_bind,
    Option.some_bind]
  rfl

/-- Claim C6: the noise sample function is total over all finite inputs —
the AND mask keeps every index in [0,255], including for negative integer
coordinates and for sums of two permutation entries, so the fully
bounds-checked sampler never fails and agrees with the unchecked one. -/
theorem noise_get_total :
    (∀ v : ℤ, 0 ≤ Int.land v 255 ∧ Int.land v 255 ≤ 255) ∧
    (∀ (c : Noise2DContext) (x y : ℝ), c.get_checked x y = some (c.get x y)) := by
  constructor
  · intro v
    refine ⟨land255_nonneg v, ?_⟩
    have := land255_lt v
    omega
  · intro c x y
    simp only [Noise2DContext.get_checked, get_gradient_checked_eq, Option.bind_eq_bind,
      Option.some_bind]
    rw [Noise2DContext.get_eq]
    rfl

/-- Claim C7: every gradient returned by the lookup on a constructed
context is a unit vector (cos, sin of some angle): its squared norm, and
hence its norm, is exactly 1 in the real model. -/
theorem gradient_unit_norm (us : Fin 256 → ℝ) (swaps : List (Fin 256 × Fin 256)) (ix iy : ℤ) :
    ((Noise2DContext.new us swaps).get_gradient ix iy).x ^ 2 +
      ((Noise2DContext.new us swaps).get_gradient ix iy).y ^ 2 = 1 ∧
    Real.sqrt (((Noise2DContext.new us swaps).get_gradient ix iy).x ^ 2 +
      ((Noise2DContext.new us swaps).get_gradient ix iy).y ^ 2) = 1 := by
  have h : ((Noise2DContext.new us swaps).get_gradient ix iy).x ^ 2 +
      ((Noise2DContext.new us swaps).get_gradient ix iy).y ^ 2 = 1 := by
    simp only [Noise2DContext.new, Noise2DContext.get_gradient, random_gradient]
    exact Real.cos_sq_add_sin_sq _
  exact ⟨h, by rw [h, Real.sqrt_one]⟩

/-- Characterization of the inner fill loop: after writing the first n
cells of row y, a position holds the noise value of its cell if it was
written and its previous content otherwise. -/
theorem writeRow_foldl (c : Noise2DContext) (y : ℕ) :
    ∀ (n : ℕ) (b : ℕ → ℝ) (k : ℕ),
      (List.range n).foldl (fun b2 x => writeCell c y x b2) b k =
        if y * COLS ≤ k ∧ k < y * COLS + n then pixelValue c y (k - y * COLS) else b k := by
  intro n
  induction n with
  | zero =>
      intro b k
      simp only [List.range_zero, List.foldl_nil]
      rw [if_neg (by omega)]
  | succ n ih =>
      intro b k
      rw [List.range_succ, List.foldl_append, List.foldl_cons, List.foldl_nil]
      show Function.update ((List.range n).foldl (fun b2 x => writeCell c y x b2) b)
        (y * COLS + n) (pixelValue c y n) k = _
      rw [Function.update_apply]
      by_cases hk : k = y * COLS + n
      · rw [if_pos hk, if_pos (by omega)]
        subst hk
        congr 1
        omega
      · rw [if_neg hk, ih b k]
        by_cases h2 : y * COLS ≤ k ∧ k < y * COLS + n
        · rw [if_pos h2, if_pos (by omega)]
        · rw [if_neg h2, if_neg (by omega)]

/-- Characterization of the outer fill loop: after writing the first m
rows, a position holds the noise value of its cell if it lies in a written
row and its previous content otherwise. -/
theorem fillPass_foldl (c : Noise2DContext) :
    ∀ (m : ℕ) (b : ℕ → ℝ) (k : ℕ),
      (List.range m).foldl (fun b2 y => writeRow c y b2) b k =
        if k < m * COLS then pixelValue c (k / COLS) (k % COLS) else b k := by
  intro m
  induction m with
  | zero =>
      intro b k
      simp only [List.range_zero, List.foldl_nil]
      rw [if_neg (by omega)]
  | succ m ih =>
      intro b k
      rw [List.range_succ, List.foldl_append, List.foldl_cons, List.foldl_nil]
      show writeRow c m ((List.range m).foldl (fun b2 y => writeRow c y b2) b) k = _
      rw [writeRow, writeRow_foldl c m COLS _ k, ih b k]
      have hC : COLS = 80 := rfl
      by_cases h1 : m * COLS ≤ k ∧ k < m * COLS + COLS
      · rw [if_pos h1]
        have hcond : k < (m + 1) * COLS := by rw [hC] at *; omega
        rw [if_pos hcond]
        have hd : k / COLS = m := by rw [hC] at *; omega
        have hm : k % COLS = k - m * COLS := by rw [hC] at *; omega
        rw [hd, hm]
      · rw [if_neg h1]
        by_cases h2 : k < m * COLS
        · rw [if_pos h2, if_pos (by rw [hC] at *; omega)]
        · rw [if_neg h2, if_neg (by rw [hC] at *; omega)]

/-- One fill pass in closed form: every cell of the ROWS x COLS grid holds
the remapped noise value of its coordinates; positions outside the buffer
footprint are untouched. -/
theorem fillPass_apply (c : Noise2DContext) (b : ℕ → ℝ) (k : ℕ) :
    fillPass c b k =
      if k < ROWS * COLS then pixelValue c (k / COLS) (k % COLS) else b k :=
  fillPass_foldl c ROWS b k

/-- A second fill pass writes exactly what the first wrote. -/
theorem fillPass_idem (c : Noise2DContext) (b : ℕ → ℝ) :
    fillPass c (fillPass c b) = fillPass c b := by
  funext k
  rw [fillPass_apply, fillPass_apply]
  by_cases hk : k < ROWS * COLS
  · rw [if_pos hk, if_pos hk]
  · rw [if_neg hk, if_neg hk]

/-- Claim C10: the per-frame fill loop is idempotent — running the pass any
number N of times (N at least 1) over the same noise context leaves the
pixel buffer exactly as one pass does, so the 100-iteration benchmark loop
does not change the rendered output. -/
theorem fill_loop_idempotent (c : Noise2DContext) (b : ℕ → ℝ) :
    ∀ N : ℕ, 1 ≤ N → (fillPass c)^[N] b = fillPass c b := by
  intro N
  induction N with
  | zero => intro h; exact absurd h (by omega)
  | succ n ih =>
      intro _
      by_cases hn : n = 0
      · subst hn
        rw [Function.iterate_one]
      · rw [Function.iterate_succ_apply', ih (by omega)]
        exact fillPass_idem c b

/-- Witness for claim C10 at a concrete context, buffer and repeat count. -/
theorem fill_loop_idempotent_witness :
    1 ≤ 1 ∧
      (fillPass ⟨fun _ => ⟨0, 0⟩, fun _ => 0⟩)^[1] (fun _ => 0) =
        fillPass ⟨fun _ => ⟨0, 0⟩, fun _ => 0⟩ (fun _ => 0) :=
  ⟨le_refl 1, fill_loop_idempotent ⟨fun _ => ⟨0, 0⟩, fun _ => 0⟩ (fun _ => 0) 1 (le_refl 1)⟩

/-- smooth maps [0,1] into [0,1]: lower end. -/
theorem smooth_nonneg {t : ℝ} (h0 : 0 ≤ t) (h1 : t ≤ 1) : 0 ≤ smooth t := by
  unfold smooth
  nlinarith

/-- smooth maps [0,1] into [0,1]: upper end. -/
theorem smooth_le_one {t : ℝ} (h0 : 0 ≤ t) (h1 : t ≤ 1) : smooth t ≤ 1 := by
  unfold smooth
  nlinarith [sq_nonneg (1 - t)]

/-- The blended one-axis contribution (1 - smooth t) * t + smooth t * (1 - t)
never exceeds one half on [0,1]. -/
theorem smooth_weight_le_half {t : ℝ} (h0 : 0 ≤ t) (h1 : t ≤ 1) :
    (1 - smooth t) * t + smooth t * (1 - t) ≤ 1 / 2 := by
  have key : 1 / 2 - ((1 - smooth t) * t + smooth t * (1 - t)) =
      (t - 1 / 2) ^ 2 * (2 * (1 + 2 * (t * (1 - t)))) := by
    unfold smooth
    ring
  have htt : 0 ≤ t * (1 - t) := mul_nonneg h0 (by linarith)
  have hpos : 0 ≤ (t - 1 / 2) ^ 2 * (2 * (1 + 2 * (t * (1 - t)))) :=
    mul_nonneg (sq_nonneg _) (by linarith)
  linarith

/-- Triangle bound for the linear interpolation with weight in [0,1]. -/
theorem abs_lerp_le {a b t : ℝ} (h0 : 0 ≤ t) (h1 : t ≤ 1) :
    |lerp a b t| ≤ (1 - t) * |a| + t * |b| := by
  unfold lerp
  calc |a * (1 - t) + b * t| ≤ |a * (1 - t)| + |b * t| := abs_add _ _
    _ = |a| * (1 - t) + |b| * t := by
        rw [abs_mul, abs_mul, abs_of_nonneg (by linarith : (0:ℝ) ≤ 1 - t), abs_of_nonneg h0]
    _ = (1 - t) * |a| + t * |b| := by ring

/-- The full bilinear blend of the four corner dot products is bounded by 1
in absolute value when the gradient components are bounded by 1 and the
fractional offsets lie in [0,1]. -/
theorem blend_bound (a b gx0 gy0 gx1 gy1 gx2 gy2 gx3 gy3 : ℝ)
    (ha0 : 0 ≤ a) (ha1 : a ≤ 1) (hb0 : 0 ≤ b) (hb1 : b ≤ 1)
    (h0x : |gx0| ≤ 1) (h0y : |gy0| ≤ 1) (h1x : |gx1| ≤ 1) (h1y : |gy1| ≤ 1)
    (h2x : |gx2| ≤ 1) (h2y : |gy2| ≤ 1) (h3x : |gx3| ≤ 1) (h3y : |gy3| ≤ 1) :
    |lerp (lerp (a * gx0 + b * gy0) ((a - 1) * gx1 + b * gy1) (smooth a))
          (lerp (a * gx2 + (b - 1) * gy2) ((a - 1) * gx3 + (b - 1) * gy3) (smooth a))
          (smooth b)| ≤ 1 := by
  have hsa0 : 0 ≤ smooth a := smooth_nonneg ha0 ha1
  have hsa1 : smooth a ≤ 1 := smooth_le_one ha0 ha1
  have hsb0 : 0 ≤ smooth b := smooth_nonneg hb0 hb1
  have hsb1 : smooth b ≤ 1 := smooth_le_one hb0 hb1
  have habs : ∀ p q u w : ℝ, |u| ≤ 1 → |w| ≤ 1 → |p * u + q * w| ≤ |p| + |q| := by
    intro p q u w hu hw
    calc |p * u + q * w| ≤ |p * u| + |q * w| := abs_add _ _
      _ = |p| * |u| + |q| * |w| := by rw [abs_mul, abs_mul]
      _ ≤ |p| * 1 + |q| * 1 := by
          gcongr
      _ = |p| + |q| := by ring
  have hv0 : |a * gx0 + b * gy0| ≤ a + b := by
    have := habs a b gx0 gy0 h0x h0y
    rwa [abs_of_nonneg ha0, abs_of_nonneg hb0] at this
  have hv1 : |(a - 1) * gx1 + b * gy1| ≤ (1 - a) + b := by
    have := habs (a - 1) b gx1 gy1 h1x h1y
    rwa [abs_of_nonpos (show a - 1 ≤ (0:ℝ) by linarith), abs_of_nonneg hb0, neg_sub] at this
  have hv2 : |a * gx2 + (b - 1) * gy2| ≤ a + (1 - b) := by
    have := habs a (b - 1) gx2 gy2 h2x h2y
    rwa [abs_of_nonneg ha0, abs_of_nonpos (show b - 1 ≤ (0:ℝ) by linarith), neg_sub] at this
  have hv3 : |(a - 1) * gx3 + (b - 1) * gy3| ≤ (1 - a) + (1 - b) := by
    have := habs (a - 1) (b - 1) gx3 gy3 h3x h3y
    rwa [abs_of_nonpos (show a - 1 ≤ (0:ℝ) by linarith),
      abs_of_nonpos (show b - 1 ≤ (0:ℝ) by linarith), neg_sub, neg_sub] at this
  have hrow0 : |lerp (a * gx0 + b * gy0) ((a - 1) * gx1 + b * gy1) (smooth a)| ≤
      (1 - smooth a) * (a + b) + smooth a * ((1 - a) + b) := by
    exact le_trans (abs_lerp_le hsa0 hsa1)
      (add_le_add (mul_le_mul_of_nonneg_left hv0 (by linarith))
        (mul_le_mul_of_nonneg_left hv1 hsa0))
  have hrow1 : |lerp (a * gx2 + (b - 1) * gy2) ((a - 1) * gx3 + (b - 1) * gy3) (smooth a)| ≤
      (1 - smooth a) * (a + (1 - b)) + smooth a * ((1 - a) + (1 - b)) := by
    exact le_trans (abs_lerp_le hsa0 hsa1)
      (add_le_add (mul_le_mul_of_nonneg_left hv2 (by linarith))
        (mul_le_mul_of_nonneg_left hv3 hsa0))
  have hfull : |lerp (lerp (a * gx0 + b * gy0) ((a - 1) * gx1 + b * gy1) (smooth a))
      (lerp (a * gx2 + (b - 1) * gy2) ((a - 1) * gx3 + (b - 1) * gy3) (smooth a))
      (smooth b)| ≤
      (1 - smooth b) * ((1 - smooth a) * (a + b) + smooth a * ((1 - a) + b)) +
        smooth b * ((1 - smooth a) * (a + (1 - b)) + smooth a * ((1 - a) + (1 - b))) := by
    exact le_trans (abs_lerp_le hsb0 hsb1)
      (add_le_add (mul_le_mul_of_nonneg_left hrow0 (by linarith))
        (mul_le_mul_of_nonneg_left hrow1 hsb0))
  have hexpand : (1 - smooth b) * ((1 - smooth a) * (a + b) + smooth a * ((1 - a) + b)) +
      smooth b * ((1 - smooth a) * (a + (1 - b)) + smooth a * ((1 - a) + (1 - b))) =
      ((1 - smooth a) * a + smooth a * (1 - a)) +
        ((1 - smooth b) * b + smooth b * (1 - b)) := by
    ring
  have hWa := smooth_weight_le_half ha0 ha1
  have hWb := smooth_weight_le_half hb0 hb1
  linarith

/-- The gradient returned by the table lookup inherits the componentwise
bound of the table entries. -/
theorem get_gradient_abs (c : Noise2DContext)
    (hg : ∀ i, |(c.rgradients i).x| ≤ 1 ∧ |(c.rgradients i).y| ≤ 1) (ix iy : ℤ) :
    |(c.get_gradient ix iy).x| ≤ 1 ∧ |(c.get_gradient ix iy).y| ≤ 1 :=
  hg _

/-- The noise sample is bounded by 1 in absolute value whenever every
gradient component of the table is bounded by 1. -/
theorem abs_get_le_one (c : Noise2DContext)
    (hg : ∀ i, |(c.rgradients i).x| ≤ 1 ∧ |(c.rgradients i).y| ≤ 1) (x y : ℝ) :
    |c.get x y| ≤ 1 := by
  rw [Noise2DContext.get_eq]
  have e00 : gradient ⟨((⌊x⌋ : ℤ) : ℝ), ((⌊y⌋ : ℤ) : ℝ)⟩ (c.get_gradient ⌊x⌋ ⌊y⌋) ⟨x, y⟩ =
      (x - ((⌊x⌋ : ℤ) : ℝ)) * (c.get_gradient ⌊x⌋ ⌊y⌋).x +
        (y - ((⌊y⌋ : ℤ) : ℝ)) * (c.get_gradient ⌊x⌋ ⌊y⌋).y := by
    simp only [gradient]
  have e10 : gradient ⟨((⌊x⌋ : ℤ) : ℝ) + 1, ((⌊y⌋ : ℤ) : ℝ)⟩
      (c.get_gradient (⌊x⌋ + 1) ⌊y⌋) ⟨x, y⟩ =
      ((x - ((⌊x⌋ : ℤ) : ℝ)) - 1) * (c.get_gradient (⌊x⌋ + 1) ⌊y⌋).x +
        (y - ((⌊y⌋ : ℤ) : ℝ)) * (c.get_gradient (⌊x⌋ + 1) ⌊y⌋).y := by
    simp only [gradient]
    ring
  have e01 : gradient ⟨((⌊x⌋ : ℤ) : ℝ), ((⌊y⌋ : ℤ) : ℝ) + 1⟩
      (c.get_gradient ⌊x⌋ (⌊y⌋ + 1)) ⟨x, y⟩ =
      (x - ((⌊x⌋ : ℤ) : ℝ)) * (c.get_gradient ⌊x⌋ (⌊y⌋ + 1)).x +
        ((y - ((⌊y⌋ : ℤ) : ℝ)) - 1) * (c.get_gradient ⌊x⌋ (⌊y⌋ + 1)).y := by
    simp only [gradient]
    ring
  have e11 : gradient ⟨((⌊x⌋ : ℤ) : ℝ) + 1, ((⌊y⌋ : ℤ) : ℝ) + 1⟩
      (c.get_gradient (⌊x⌋ + 1) (⌊y⌋ + 1)) ⟨x, y⟩ =
      ((x - ((⌊x⌋ : ℤ) : ℝ)) - 1) * (c.get_gradient (⌊x⌋ + 1) (⌊y⌋ + 1)).x +
        ((y - ((⌊y⌋ : ℤ) : ℝ)) - 1) * (c.get_gradient (⌊x⌋ + 1) (⌊y⌋ + 1)).y := by
    simp only [gradient]
    ring
  rw [e00, e10, e01, e11]
  have ha0 : 0 ≤ x - ((⌊x⌋ : ℤ) : ℝ) := by
    have := Int.floor_le x
    linarith
  have ha1 : x - ((⌊x⌋ : ℤ) : ℝ) ≤ 1 := by
    have := Int.lt_floor_add_one x
    linarith
  have hb0 : 0 ≤ y - ((⌊y⌋ : ℤ) : ℝ) := by
    have := Int.floor_le y
    linarith
  have hb1 : y - ((⌊y⌋ : ℤ) : ℝ) ≤ 1 := by
    have := Int.lt_floor_add_one y
    linarith
  exact blend_bound (x - ((⌊x⌋ : ℤ) : ℝ)) (y - ((⌊y⌋ : ℤ) : ℝ)) _ _ _ _ _ _ _ _
    ha0 ha1 hb0 hb1
    (get_gradient_abs c hg _ _).1 (get_gradient_abs c hg _ _).2
    (get_gradient_abs c hg _ _).1 (get_gradient_abs c hg _ _).2
    (get_gradient_abs c hg _ _).1 (get_gradient_abs c hg _ _).2
    (get_gradient_abs c hg _ _).1 (get_gradient_abs c hg _ _).2

/-- Claim C8: every pixel value the render loop stores is a noise sample
remapped by v * 0.5 + 0.5, its glyph index (pixel / 0.2) as usize is at
most 5, and the lookup into the six-element symbol array of the print loop
is in bounds; this rests on the noise output being bounded by 1 in
magnitude. -/
theorem render_index_in_bounds (us : Fin 256 → ℝ) (swaps : List (Fin 256 × Fin 256))
    (b : ℕ → ℝ) (k : ℕ) (hk : k < ROWS * COLS) :
    symbolIndex (fillPass (Noise2DContext.new us swaps) b k) ≤ 5 ∧
    (symbols.get? (symbolIndex (fillPass (Noise2DContext.new us swaps) b k))).isSome := by
  have hgb : ∀ i, |((Noise2DContext.new us swaps).rgradients i).x| ≤ 1 ∧
      |((Noise2DContext.new us swaps).rgradients i).y| ≤ 1 := by
    intro i
    simp only [Noise2DContext.new, random_gradient]
    exact ⟨Real.abs_cos_le_one _, Real.abs_sin_le_one _⟩
  have hpix : fillPass (Noise2DContext.new us swaps) b k =
      pixelValue (Noise2DContext.new us swaps) (k / COLS) (k % COLS) := by
    rw [fillPass_apply, if_pos hk]
  have hv := abs_get_le_one (Noise2DContext.new us swaps) hgb
    (((k % COLS : ℕ) : ℝ) * 0.1) (((k / COLS : ℕ) : ℝ) * 0.1)
  have hvle := (abs_le.1 hv).2
  have hvge := (abs_le.1 hv).1
  have hrange : 0 ≤ pixelValue (Noise2DContext.new us swaps) (k / COLS) (k % COLS) ∧
      pixelValue (Noise2DContext.new us swaps) (k / COLS) (k % COLS) ≤ 1 := by
    unfold pixelValue
    constructor <;> linarith
  have hidx : symbolIndex (pixelValue (Noise2DContext.new us swaps) (k / COLS) (k % COLS)) ≤ 5 := by
    unfold symbolIndex asUsize
    have h6 : pixelValue (Noise2DContext.new us swaps) (k / COLS) (k % COLS) / 0.2 <
        ((6 : ℤ) : ℝ) := by
      rw [div_lt_iff (by norm_num)]
      push_cast
      linarith [hrange.2]
    have hfl : ⌊pixelValue (Noise2DContext.new us swaps) (k / COLS) (k % COLS) / 0.2⌋ < 6 :=
      Int.floor_lt.2 h6
    omega
  rw [hpix]
  refine ⟨hidx, ?_⟩
  have hlen : symbolIndex (pixelValue (Noise2DContext.new us swaps) (k / COLS) (k % COLS)) <
      symbols.length := by
    have : symbols.length = 6 := rfl
    omega
  rw [List.get?_eq_get hlen]
  rfl

/-- Witness for claim C8 at a concrete construction, buffer and cell. -/
theorem render_index_in_bounds_witness :
    0 < ROWS * COLS ∧
    (symbolIndex (fillPass (Noise2DContext.new (fun _ => 0) []) (fun _ => 0) 0) ≤ 5 ∧
      (symbols.get? (symbolIndex
        (fillPass (Noise2DContext.new (fun _ => 0) []) (fun _ => 0) 0))).isSome) :=
  ⟨by decide, render_index_in_bounds (fun _ => 0) [] (fun _ => 0) 0 (by decide)⟩

end Pnoise
